import Mathlib

/-!
Verification of the preprocessor driver (`verilog_preprocessor.cc`) and the
two engines it invokes.  The driver code (subcommands `strip-comments`,
`multiple-compilation-unit`, `generate-variants`, the variant callback with
its `limit_variants` counter) is embedded from the source file.  The flow
tree and the directive engine live outside the provided sources, so they are
modelled from the specification (sections 3, 4.2, 4.3, 4.4); each such
definition is marked `Modelled from the spec:`.
-/

namespace VeriblePreproc

/-- Token model (spec section 3): the scanner's tokens, restricted to the
kinds the two engines inspect.  Conditional directives carry the tested
macro name; `define` carries the new body; all remaining significant
source text is `text`. -/
inductive VTok where
  | text (s : String)
  | ifdef (m : String)
  | ifndef (m : String)
  | elsif (m : String)
  | els
  | endif
  | define (m : String) (body : List String)
  | undef (m : String)
deriving DecidableEq

/-- A partial macro-definedness assignment along one enumeration path,
in binding order. -/
abbrev Asn := List (String × Bool)

/-- First binding of a name in an assignment. -/
def lookupAsn (asn : Asn) (m : String) : Option Bool :=
  match asn with
  | [] => none
  | (k, b) :: rest => if k = m then some b else lookupAsn rest m

/-- Variant (spec section 3): one consistent resolution of all conditionals,
with the token sequence that resolution produces. -/
structure Variant where
  assignment : Asn
  sequence : List VTok
deriving DecidableEq

/-- Modelled from the spec (section 4.4): extend the partial assignment with
the constraints of one branch alternative.  A constraint already bound to a
different value makes the alternative inconsistent with the current path
(`none`); an unbound name is added with the required value. -/
def tryExtend (asn : Asn) : List (String × Bool) → Option Asn
  | [] => some asn
  | (m, b) :: rest =>
    match lookupAsn asn m with
    | some c => if b = c then tryExtend asn rest else none
    | none => tryExtend (asn ++ [(m, b)]) rest

/-- Modelled from the spec (section 3, `FlowTreeNode`): the flow tree in
sequentialized form.  `leaf ts rest` is a straight token run followed by the
rest of its sequence; `choice cs body alts` is one
`ConditionalBranchAlternative` whose condition contributes constraints `cs`,
whose body (already continued with whatever follows the branch group) is
`body`, and whose remaining sibling alternatives are `alts`; `stop` ends an
alternative list (no alternative left); `done` ends a root-to-leaf path. -/
inductive Flow where
  | done
  | stop
  | leaf (tokens : List VTok) (rest : Flow)
  | choice (constraints : List (String × Bool)) (body : Flow) (alts : Flow)
deriving DecidableEq

/-- Modelled from the spec (section 4.4): the full depth-first, source-order
enumeration of variants of a flow tree, under partial assignment `asn` with
token accumulator `acc`.  Inconsistent alternatives are skipped entirely;
sibling alternatives are explored under the unpolluted assignment. -/
def flowVariants : Flow → Asn → List VTok → List Variant
  | .done, asn, acc => [⟨asn, acc⟩]
  | .stop, _, _ => []
  | .leaf ts rest, asn, acc => flowVariants rest asn (acc ++ ts)
  | .choice cs body alts, asn, acc =>
    (match tryExtend asn cs with
     | none => []
     | some asn2 => flowVariants body asn2 acc) ++ flowVariants alts asn acc

/-- Modelled from the spec (section 4.4, `FlowTree::GenerateVariants`):
depth-first enumeration with a caller-supplied callback.  Each complete
root-to-leaf variant is delivered to the callback, which updates its state
and answers whether to keep going; a `false` answer stops the entire
remaining traversal.  Returns the final callback state, the final
keep-going flag, and the list of variants that were delivered. -/
def genVariants {σ : Type} (cb : σ → Variant → σ × Bool) :
    Flow → Asn → List VTok → σ → σ × Bool × List Variant
  | .done, asn, acc, s =>
    let p := cb s ⟨asn, acc⟩
    (p.1, p.2, [⟨asn, acc⟩])
  | .stop, _, _, s => (s, true, [])
  | .leaf ts rest, asn, acc, s => genVariants cb rest asn (acc ++ ts) s
  | .choice cs body alts, asn, acc, s =>
    match tryExtend asn cs with
    | none => genVariants cb alts asn acc s
    | some asn2 =>
      let r := genVariants cb body asn2 acc s
      if r.2.1 then
        let q := genVariants cb alts asn acc r.1
        (q.1, q.2.1, r.2.2 ++ q.2.2)
      else
        (r.1, false, r.2.2)

/-- Reference delivery loop: hand variants of a list to the callback one by
one, stopping right after the first `false` answer. -/
def deliverUpTo {σ : Type} (cb : σ → Variant → σ × Bool) :
    σ → List Variant → σ × Bool × List Variant
  | s, [] => (s, true, [])
  | s, v :: vs =>
    let p := cb s v
    if p.2 then
      let r := deliverUpTo cb p.1 vs
      (r.1, r.2.1, v :: r.2.2)
    else
      (p.1, false, [v])

theorem deliverUpTo_append {σ : Type} (cb : σ → Variant → σ × Bool)
    (l1 l2 : List Variant) (s : σ) :
    deliverUpTo cb s (l1 ++ l2) =
      (let r := deliverUpTo cb s l1
       if r.2.1 then
         let q := deliverUpTo cb r.1 l2
         (q.1, q.2.1, r.2.2 ++ q.2.2)
       else (r.1, false, r.2.2)) := by
  induction l1 generalizing s with
  | nil => simp [deliverUpTo]
  | cons v vs ih =>
    simp only [List.cons_append, deliverUpTo]
    by_cases h : (cb s v).2
    · simp only [h, if_true, List.append_eq]
      rw [ih (cb s v).1]
      by_cases h2 : (deliverUpTo cb (cb s v).1 vs).2.1
      · simp [h2]
      · simp [h2]
    · simp [h]

/-- The traversal with a callback delivers exactly the prefix of the full
depth-first variant list truncated at the callback's first `false` answer. -/
theorem genVariants_eq_deliverUpTo {σ : Type} (cb : σ → Variant → σ × Bool)
    (fl : Flow) (asn : Asn) (acc : List VTok) (s : σ) :
    genVariants cb fl asn acc s = deliverUpTo cb s (flowVariants fl asn acc) := by
  induction fl generalizing asn acc s with
  | done =>
    simp only [genVariants, flowVariants, deliverUpTo]
    by_cases h : (cb s ⟨asn, acc⟩).2 <;> simp [h, deliverUpTo]
  | stop => simp [genVariants, flowVariants, deliverUpTo]
  | leaf ts rest ih => simp [genVariants, flowVariants, ih]
  | choice cs body alts ihb iha =>
    simp only [genVariants, flowVariants]
    cases h : tryExtend asn cs with
    | none => simp [iha]
    | some asn2 =>
      simp only [deliverUpTo_append, ihb, iha]

/-- Along a delivered list, every variant except possibly the last was
answered `true` by the callback (tracking the callback state): once the
callback answers `false`, nothing further is delivered. -/
def noDeliveryAfterStop {σ : Type} (cb : σ → Variant → σ × Bool) :
    σ → List Variant → Prop
  | _, [] => True
  | _, [_] => True
  | s, v :: w :: rest =>
    (cb s v).2 = true ∧ noDeliveryAfterStop cb (cb s v).1 (w :: rest)

theorem deliverUpTo_noDelivery {σ : Type} (cb : σ → Variant → σ × Bool)
    (vs : List Variant) (s : σ) :
    noDeliveryAfterStop cb s (deliverUpTo cb s vs).2.2 := by
  induction vs generalizing s with
  | nil => simp [deliverUpTo, noDeliveryAfterStop]
  | cons v vs ih =>
    simp only [deliverUpTo]
    by_cases h : (cb s v).2
    · simp only [h, if_true]
      have htail := ih (cb s v).1
      cases htl : (deliverUpTo cb (cb s v).1 vs).2.2 with
      | nil => simp [noDeliveryAfterStop]
      | cons w rest =>
        rw [htl] at htail
        exact ⟨h, htail⟩
    · simp [h, noDeliveryAfterStop]

/-- C3: For every input flow tree and every caller-supplied callback, once
the callback returns `false` no further variant is delivered to it — the
entire remaining traversal ceases, not merely the remaining siblings: along
the delivered list, the callback answered `true` at every variant that has a
successor. -/
theorem callback_stop_ends_traversal {σ : Type} (cb : σ → Variant → σ × Bool)
    (fl : Flow) (asn : Asn) (acc : List VTok) (s : σ) :
    noDeliveryAfterStop cb s (genVariants cb fl asn acc s).2.2 := by
  rw [genVariants_eq_deliverUpTo]
  exact deliverUpTo_noDelivery cb (flowVariants fl asn acc) s

/-- Is this token one of the conditional directives the flow tree branches
on? -/
def isCondDirective : VTok → Bool
  | .ifdef _ => true
  | .ifndef _ => true
  | .elsif _ => true
  | .els => true
  | .endif => true
  | _ => false

/-- Kind tag of one branch-group arm (spec section 3,
`ConditionalBranchAlternative`). -/
inductive ArmKind where
  | ifdefK (m : String)
  | ifndefK (m : String)
  | elsifK (m : String)
  | elseK
deriving DecidableEq

/-- Constraint an arm's condition imposes when that arm is the one taken. -/
def armPos : ArmKind → List (String × Bool)
  | .ifdefK m => [(m, true)]
  | .ifndefK m => [(m, false)]
  | .elsifK m => [(m, true)]
  | .elseK => []

/-- Constraint an arm's condition imposes when a later sibling arm is the
one taken (the arm must not have fired). -/
def armNeg : ArmKind → List (String × Bool)
  | .ifdefK m => [(m, false)]
  | .ifndefK m => [(m, true)]
  | .elsifK m => [(m, false)]
  | .elseK => []

/-- Turn the source-ordered arms of one branch group (each with its
already-continued body flow) into a chain of `choice` alternatives: taking
arm k requires the negations of all earlier arms' conditions plus arm k's
own condition. -/
def altsToFlow (prior : List (String × Bool)) : List (ArmKind × Flow) → Flow
  | [] => .stop
  | (k, f) :: rest => .choice (prior ++ armPos k) f (altsToFlow (prior ++ armNeg k) rest)

/-- One branch group still open during construction: the flow following its
matching endif, and the arms closed so far in source order. -/
structure BuildFrame where
  cont : Flow
  alts : List (ArmKind × Flow)
deriving DecidableEq

/-- Construction failure (spec section 4.3): malformed conditional nesting
is the flow tree's one hard failure. -/
inductive FlowError where
  | malformedConditionalNesting
deriving DecidableEq

/-- One construction step, consuming tokens from the right so that each
arm's body flow is already continued with whatever follows its group.  A
conditional directive with no group open to its right is malformed
nesting. -/
def buildStep (t : VTok) (st : Except FlowError (Flow × List BuildFrame)) :
    Except FlowError (Flow × List BuildFrame) :=
  match st with
  | .error e => .error e
  | .ok (cur, stack) =>
    match t with
    | .endif => .ok (cur, ⟨cur, []⟩ :: stack)
    | .els =>
      match stack with
      | [] => .error .malformedConditionalNesting
      | fr :: rest => .ok (fr.cont, ⟨fr.cont, (.elseK, cur) :: fr.alts⟩ :: rest)
    | .elsif m =>
      match stack with
      | [] => .error .malformedConditionalNesting
      | fr :: rest => .ok (fr.cont, ⟨fr.cont, (.elsifK m, cur) :: fr.alts⟩ :: rest)
    | .ifdef m =>
      match stack with
      | [] => .error .malformedConditionalNesting
      | fr :: rest => .ok (altsToFlow [] ((.ifdefK m, cur) :: fr.alts), rest)
    | .ifndef m =>
      match stack with
      | [] => .error .malformedConditionalNesting
      | fr :: rest => .ok (altsToFlow [] ((.ifndefK m, cur) :: fr.alts), rest)
    | _ => .ok (.leaf [t] cur, stack)

/-- Modelled from the spec (section 4.3, flow tree construction, absent from
the provided sources): a single pass over the token stream builds the tree;
straight runs between directives become leaf runs (kept here as chains of
single-token leaves, which concatenate to the same run), each conditional
group becomes a chain of alternatives, and unmatched conditional directives
make the whole construction fail rather than yield a partial tree. -/
def buildFlow (tokens : List VTok) : Except FlowError Flow :=
  match tokens.foldr buildStep (.ok (.done, [])) with
  | .error e => .error e
  | .ok (f, []) => .ok f
  | .ok (_, _ :: _) => .error .malformedConditionalNesting

/-- A straight run of tokens as a chain of single-token leaves ending in
`f`. -/
def leavesChain (ts : List VTok) (f : Flow) : Flow :=
  ts.foldr (fun t acc => .leaf [t] acc) f

theorem foldr_buildStep_plain (ts : List VTok)
    (h : ∀ t ∈ ts, isCondDirective t = false)
    (cur : Flow) (stack : List BuildFrame) :
    ts.foldr buildStep (.ok (cur, stack)) = .ok (leavesChain ts cur, stack) := by
  induction ts with
  | nil => simp [leavesChain]
  | cons t ts ih =>
    have ht := h t (by simp)
    have hrest : ∀ u ∈ ts, isCondDirective u = false := fun u hu => h u (by simp [hu])
    simp only [List.foldr_cons, ih hrest]
    cases t <;> simp_all [isCondDirective, buildStep, leavesChain]

/-- The token sequence of one `ifdef m A else B endif` group. -/
def groupToks (m : String) (A B : List String) : List VTok :=
  .ifdef m :: (A.map .text ++ (.els :: (B.map .text ++ [.endif])))

/-- The flow such a group constructs, continued with `cont`. -/
def groupFlow (m : String) (A B : List String) (cont : Flow) : Flow :=
  .choice [(m, true)] (leavesChain (A.map .text) cont)
    (.choice [(m, false)] (leavesChain (B.map .text) cont) .stop)

theorem mapText_not_cond (A : List String) :
    ∀ t ∈ A.map VTok.text, isCondDirective t = false := by
  intro t ht
  simp only [List.mem_map] at ht
  obtain ⟨a, _, rfl⟩ := ht
  rfl

theorem foldr_buildStep_group (m : String) (A B : List String)
    (cur : Flow) (stack : List BuildFrame) :
    (groupToks m A B).foldr buildStep (.ok (cur, stack)) =
      .ok (groupFlow m A B cur, stack) := by
  simp [groupToks, List.foldr_append, buildStep,
    foldr_buildStep_plain _ (mapText_not_cond A),
    foldr_buildStep_plain _ (mapText_not_cond B),
    altsToFlow, armPos, armNeg, groupFlow]

theorem flowVariants_leavesChain (ts : List VTok) (f : Flow) (asn : Asn)
    (acc : List VTok) :
    flowVariants (leavesChain ts f) asn acc = flowVariants f asn (acc ++ ts) := by
  induction ts generalizing acc with
  | nil => simp [leavesChain]
  | cons t ts ih =>
    have h1 : flowVariants (leavesChain (t :: ts) f) asn acc
        = flowVariants (leavesChain ts f) asn (acc ++ [t]) := rfl
    rw [h1, ih, List.append_assoc]
    rfl

/-- C4: for a token sequence containing no conditional directives, flow-tree
enumeration delivers exactly one variant, whose assignment is empty and
whose token sequence equals the input (the flow tree applies no macro
expansion). -/
theorem no_conditionals_single_variant (toks : List VTok)
    (h : ∀ t ∈ toks, isCondDirective t = false) :
    (buildFlow toks).map (fun fl => flowVariants fl [] []) = .ok [⟨[], toks⟩] := by
  simp [buildFlow, foldr_buildStep_plain toks h, Except.map,
    flowVariants_leavesChain, flowVariants]

/-- Witness for C4 on a concrete directive-free sequence. -/
theorem no_conditionals_single_variant_witness :
    (∀ t ∈ [VTok.text "a", VTok.define "M" ["1"], VTok.text "b"],
        isCondDirective t = false) ∧
    (buildFlow [VTok.text "a", VTok.define "M" ["1"], VTok.text "b"]).map
        (fun fl => flowVariants fl [] []) =
      .ok [⟨[], [VTok.text "a", VTok.define "M" ["1"], VTok.text "b"]⟩] :=
  ⟨by decide, no_conditionals_single_variant _ (by decide)⟩

/-- C2: the single branch group `ifdef(X) A else B endif` yields exactly two
variants, in this fixed order: first X bound defined with sequence A, then X
bound undefined with sequence B.  The delivered order is the
pre-order, source-order depth-first enumeration `flowVariants`, a pure
function of the input, hence deterministic across runs. -/
theorem single_ifdef_else_two_variants (X : String) (A B : List String) :
    (buildFlow (groupToks X A B)).map (fun fl => flowVariants fl [] []) =
      .ok [⟨[(X, true)], A.map .text⟩, ⟨[(X, false)], B.map .text⟩] := by
  simp [buildFlow, foldr_buildStep_group, groupFlow, Except.map, flowVariants,
    tryExtend, lookupAsn, flowVariants_leavesChain]

/-- Token sequence of a run of independent, non-overlapping
`ifdef/else/endif` groups in source order. -/
def indepToks (gs : List (String × List String × List String)) : List VTok :=
  match gs with
  | [] => []
  | g :: rest => groupToks g.1 g.2.1 g.2.2 ++ indepToks rest

/-- The flow such a run constructs, continued with `cont`. -/
def indepFlowFrom (gs : List (String × List String × List String))
    (cont : Flow) : Flow :=
  match gs with
  | [] => cont
  | g :: rest => groupFlow g.1 g.2.1 g.2.2 (indepFlowFrom rest cont)

theorem foldr_buildStep_indep (gs : List (String × List String × List String))
    (cur : Flow) (stack : List BuildFrame) :
    (indepToks gs).foldr buildStep (.ok (cur, stack)) =
      .ok (indepFlowFrom gs cur, stack) := by
  induction gs with
  | nil => simp [indepToks, indepFlowFrom]
  | cons g rest ih =>
    simp [indepToks, List.foldr_append, ih, foldr_buildStep_group, indepFlowFrom]

theorem buildFlow_indep (gs : List (String × List String × List String)) :
    buildFlow (indepToks gs) = .ok (indepFlowFrom gs .done) := by
  simp [buildFlow, foldr_buildStep_indep]

theorem lookupAsn_append_none (asn : Asn) (m k : String) (b : Bool)
    (h : lookupAsn asn k = none) (hne : k ≠ m) :
    lookupAsn (asn ++ [(m, b)]) k = none := by
  induction asn with
  | nil => simp [lookupAsn, Ne.symm hne]
  | cons p rest ih =>
    obtain ⟨k1, b1⟩ := p
    simp only [lookupAsn, List.cons_append] at h ⊢
    by_cases hk : k1 = k
    · simp [hk] at h
    · simp only [hk, if_false] at h ⊢
      exact ih h

/-- Each group over a macro unbound so far and distinct from all later
group macros doubles the variant count: N independent groups give 2 ^ N
variants. -/
theorem indep_flowVariants_length (gs : List (String × List String × List String))
    (asn : Asn) (acc : List VTok)
    (hnd : (gs.map (fun g => g.1)).Nodup)
    (hunb : ∀ g ∈ gs, lookupAsn asn g.1 = none) :
    (flowVariants (indepFlowFrom gs .done) asn acc).length = 2 ^ gs.length := by
  induction gs generalizing asn acc with
  | nil => simp [indepFlowFrom, flowVariants]
  | cons g rest ih =>
    have hg : lookupAsn asn g.1 = none := hunb g (by simp)
    simp only [List.map_cons, List.nodup_cons, List.mem_map] at hnd
    have hni : ∀ g2 ∈ rest, g2.1 ≠ g.1 := by
      intro g2 hg2 heq
      exact hnd.1 ⟨g2, hg2, heq⟩
    have hunb2 : ∀ (b : Bool), ∀ g2 ∈ rest, lookupAsn (asn ++ [(g.1, b)]) g2.1 = none :=
      fun b g2 hg2 =>
        lookupAsn_append_none asn g.1 g2.1 b (hunb g2 (by simp [hg2])) (hni g2 hg2)
    simp only [indepFlowFrom, groupFlow, flowVariants, tryExtend, hg,
      flowVariants_leavesChain, List.append_nil, List.length_append,
      ih _ _ hnd.2 (hunb2 true), ih _ _ hnd.2 (hunb2 false), List.length_cons]
    rw [pow_succ]
    ring

/-- The limit_variants flag: maximum number of variants printed, default 20
(source line 39). -/
def limit_variants_default : Int := 20

/-- The generate-variants callback (source lines 202 to 212): its state is
the counter and the variants printed so far.  Once the counter equals the
limit the variant is refused and enumeration is told to stop; otherwise the
counter is incremented and the variant printed. -/
def driverCallback (limit : Int) :
    (Int × List Variant) → Variant → (Int × List Variant) × Bool :=
  fun s v => if s.1 = limit then (s, false) else ((s.1 + 1, s.2 ++ [v]), true)

/-- Terminal statuses of the generate-variants subcommand. -/
inductive CmdError where
  | missingFileArgument
  | onlyOneFile
  | flowError (e : FlowError)
deriving DecidableEq

/-- The generate-variants subcommand (source lines 154 to 218) over the
already-lexed token sequences of the files named on the command line (file
reading and lexing are external glue).  An empty file list and a list of
more than one file are rejected before any further work; otherwise the flow
tree of the single file is built and enumerated with `driverCallback`
starting from counter 0, and the printed variants are returned. -/
def generateVariantsCmd (limit : Int) (files : List (List VTok)) :
    Except CmdError (List Variant) :=
  match files with
  | [] => .error .missingFileArgument
  | [toks] =>
    match buildFlow toks with
    | .error e => .error (.flowError e)
    | .ok fl => .ok (genVariants (driverCallback limit) fl [] [] (0, [])).1.2
  | _ => .error .onlyOneFile

theorem deliverUpTo_driver_length (limit : Int) (vs : List Variant)
    (c : Int) (out : List Variant) (hc : c ≤ limit) :
    ((deliverUpTo (driverCallback limit) (c, out) vs).1).2.length
      = out.length + min vs.length (limit - c).toNat := by
  induction vs generalizing c out with
  | nil => simp [deliverUpTo]
  | cons v vs ih =>
    by_cases h : c = limit
    · subst h
      simp [deliverUpTo, driverCallback]
    · have hlt : c < limit := lt_of_le_of_ne hc h
      have hstep := ih (c + 1) (out ++ [v]) (by omega)
      simp only [deliverUpTo, driverCallback, h, if_false]
      simp only [List.length_append, List.length_singleton] at hstep
      simp only [if_true, hstep, List.length_cons]
      omega

/-- C1: on a file whose conditional structure is N independent
ifdef/else/endif groups over distinct macro names, the generate-variants
subcommand delivers exactly min(2 ^ N, limit_variants) variants whenever
the configured limit is a genuine (nonnegative) bound: the callback stops
accepting variants once its counter reaches the limit.  The flag defaults
to 20. -/
theorem generate_variants_min_pow_limit :
    limit_variants_default = 20 ∧
    ∀ (gs : List (String × List String × List String)) (limit : Int),
      0 ≤ limit → (gs.map (fun g => g.1)).Nodup →
      (generateVariantsCmd limit [indepToks gs]).map List.length =
        .ok (min (2 ^ gs.length) limit.toNat) := by
  refine ⟨rfl, ?_⟩
  intro gs limit h0 hnd
  have hlen := deliverUpTo_driver_length limit
    (flowVariants (indepFlowFrom gs .done) [] []) 0 [] h0
  simp only [generateVariantsCmd, buildFlow_indep, genVariants_eq_deliverUpTo,
    Except.map]
  rw [hlen, indep_flowVariants_length gs [] [] hnd (by intro g hg; rfl)]
  simp

/-- Witness for C1: two independent groups and limit 3 deliver min(4, 3) = 3
variants. -/
theorem generate_variants_min_pow_limit_witness :
    0 ≤ (3 : Int) ∧
    (([("A", ["x"], ["y"]), ("B", [], [])] :
        List (String × List String × List String)).map (fun g => g.1)).Nodup ∧
    (generateVariantsCmd 3
        [indepToks [("A", ["x"], ["y"]), ("B", [], [])]]).map List.length =
      .ok (min (2 ^ ([("A", ["x"], ["y"]), ("B", [], [])] :
        List (String × List String × List String)).length) (3 : Int).toNat) :=
  ⟨by decide, by decide,
   generate_variants_min_pow_limit.2 [("A", ["x"], ["y"]), ("B", [], [])] 3
     (by decide) (by decide)⟩

theorem deliverUpTo_driver_neg (limit : Int) (vs : List Variant)
    (c : Int) (out : List Variant) (hneg : limit < 0) (hc : 0 ≤ c) :
    ((deliverUpTo (driverCallback limit) (c, out) vs).1).2 = out ++ vs := by
  induction vs generalizing c out with
  | nil => simp [deliverUpTo]
  | cons v vs ih =>
    have h : ¬(c = limit) := by omega
    simp only [deliverUpTo, driverCallback, h, if_false, if_true]
    rw [ih (c + 1) (out ++ [v]) (by omega)]
    simp

/-- C8: with a negative limit_variants the callback's stop test (counter
equal to the limit) never fires, because the counter starts at 0 and only
increments; hence no bound is imposed and every variant of the file is
delivered. -/
theorem negative_limit_delivers_all (limit : Int) (toks : List VTok) (fl : Flow)
    (hneg : limit < 0) (hok : buildFlow toks = .ok fl) :
    generateVariantsCmd limit [toks] = .ok (flowVariants fl [] []) := by
  simp only [generateVariantsCmd, hok, genVariants_eq_deliverUpTo]
  rw [deliverUpTo_driver_neg limit _ 0 [] hneg le_rfl]
  simp

/-- Witness for C8: limit -1 on a single two-variant group delivers both
variants. -/
theorem negative_limit_delivers_all_witness :
    (-1 : Int) < 0 ∧
    buildFlow (groupToks "X" ["a"] ["b"]) = .ok (groupFlow "X" ["a"] ["b"] .done) ∧
    generateVariantsCmd (-1) [groupToks "X" ["a"] ["b"]] =
      .ok (flowVariants (groupFlow "X" ["a"] ["b"] .done) [] []) :=
  ⟨by decide, rfl,
   negative_limit_delivers_all (-1) _ _ (by decide) rfl⟩

/-- C10: generate-variants accepts exactly one file.  An empty file list is
rejected with the missing-file invalid-argument error, and a list of more
than one file with the only-one-file invalid-argument error — for every
possible file contents and limit, hence before any lexing or
enumeration. -/
theorem generate_variants_single_file_check :
    (∀ limit : Int, generateVariantsCmd limit [] = .error .missingFileArgument) ∧
    (∀ (limit : Int) (files : List (List VTok)), 2 ≤ files.length →
      generateVariantsCmd limit files = .error .onlyOneFile) := by
  constructor
  · intro limit
    rfl
  · intro limit files hlen
    match files with
    | [] => simp at hlen
    | [f] => simp at hlen
    | f1 :: f2 :: rest => rfl

/-- Witness for C10 at concrete inputs: zero files and two files. -/
theorem generate_variants_single_file_check_witness :
    generateVariantsCmd 0 [] = .error .missingFileArgument ∧
    2 ≤ ([[], [VTok.text "a"]] : List (List VTok)).length ∧
    generateVariantsCmd 0 [[], [VTok.text "a"]] = .error .onlyOneFile :=
  ⟨generate_variants_single_file_check.1 0, by decide,
   generate_variants_single_file_check.2 0 [[], [VTok.text "a"]] (by decide)⟩

/-- One open-conditional frame of the directive engine (spec section
4.2). -/
structure CondFrame where
  group_taken_already : Bool
  current_arm_active : Bool
  enclosing_active : Bool
deriving DecidableEq

/-- Directive engine configuration: drop inactive-branch tokens entirely, or
mark them and pass them through. -/
structure PpConfig where
  filter_branches : Bool
deriving DecidableEq

/-- Directive engine diagnostics (spec section 7); accumulated, never
fatal. -/
inductive PpDiag where
  | unmatchedDirective
  | unterminatedConditionalAtEOF
deriving DecidableEq

/-- Directive engine state: the stack of open conditionals, the per-run
definition table, the emitted stream (each token with its active mark), and
the diagnostics so far. -/
structure PpState where
  stack : List CondFrame
  table : List (String × List String)
  output : List (VTok × Bool)
  errors : List PpDiag
deriving DecidableEq

/-- Definedness test against the table. -/
def isDefinedTbl (tbl : List (String × List String)) (m : String) : Bool :=
  match tbl with
  | [] => false
  | (k, _) :: rest => if k = m then true else isDefinedTbl rest m

/-- A token region is emitted only if every frame on the stack has an active
current arm (spec section 4.2). -/
def activeNow (stack : List CondFrame) : Bool :=
  stack.all (fun fr => fr.current_arm_active)

/-- Modelled from the spec (section 4.2, the directive engine's transition
function, absent from the provided sources): one token of the single-pass
state machine.  Openers push a frame from the definedness test conjoined
with the enclosing activity; elsif/else rework the top frame; endif pops;
stray elsif/else/endif record an UnmatchedDirective diagnostic and continue
as if the directive were absent; define/undef mutate the table and are
never emitted; any other token is emitted when active — only when active if
filtering is on, and otherwise always, marked with its activity. -/
def scanStep (cfg : PpConfig) (st : PpState) (t : VTok) : PpState :=
  match t with
  | .ifdef m =>
    let enc := activeNow st.stack
    let act := isDefinedTbl st.table m && enc
    { st with stack := ⟨act, act, enc⟩ :: st.stack }
  | .ifndef m =>
    let enc := activeNow st.stack
    let act := !isDefinedTbl st.table m && enc
    { st with stack := ⟨act, act, enc⟩ :: st.stack }
  | .elsif m =>
    match st.stack with
    | [] => { st with errors := st.errors ++ [.unmatchedDirective] }
    | fr :: rest =>
      if !fr.group_taken_already && isDefinedTbl st.table m then
        { st with stack := ⟨true, true, fr.enclosing_active⟩ :: rest }
      else
        { st with stack := ⟨fr.group_taken_already, false, fr.enclosing_active⟩ :: rest }
  | .els =>
    match st.stack with
    | [] => { st with errors := st.errors ++ [.unmatchedDirective] }
    | fr :: rest =>
      { st with stack := ⟨true, !fr.group_taken_already, fr.enclosing_active⟩ :: rest }
  | .endif =>
    match st.stack with
    | [] => { st with errors := st.errors ++ [.unmatchedDirective] }
    | _ :: rest => { st with stack := rest }
  | .define m body => { st with table := (m, body) :: st.table.filter (fun p => p.1 ≠ m) }
  | .undef m => { st with table := st.table.filter (fun p => p.1 ≠ m) }
  | .text _ =>
    let act := activeNow st.stack
    if cfg.filter_branches then
      if act then { st with output := st.output ++ [(t, act)] } else st
    else
      { st with output := st.output ++ [(t, act)] }

/-- Run the engine over a token list from a given state. -/
def scanFrom (cfg : PpConfig) (st : PpState) (toks : List VTok) : PpState :=
  toks.foldl (scanStep cfg) st

/-- Table seeded only with the externally supplied predefinitions
(SetExternalDefine: a name with a single-token body). -/
def seedTable (defines : List (String × String)) : List (String × List String) :=
  defines.map (fun d => (d.1, [d.2]))

/-- Fresh engine state for one file's run. -/
def initState (defines : List (String × String)) : PpState :=
  ⟨[], seedTable defines, [], []⟩

/-- End of input: one unterminated-conditional diagnostic per frame still
open; the run does not fail. -/
def finalizeScan (st : PpState) : PpState :=
  { st with errors := st.errors ++ st.stack.map (fun _ => PpDiag.unterminatedConditionalAtEOF) }

/-- Modelled from the spec (section 4.2, `VerilogPreprocess::ScanStream`,
absent from the provided sources): the whole single-pass run over a lexed
stream, from the externally seeded table, never aborting mid-file.  Macro
expansion is off, as in the driver's configuration (the `expand_macros`
line is commented out in `PreprocessSingleFile`). -/
def scanStream (cfg : PpConfig) (defines : List (String × String))
    (toks : List VTok) : PpState :=
  finalizeScan (scanFrom cfg (initState defines) toks)

/-- Project a marked-stream (filter off) state to the corresponding
filtering (filter on) state: keep only actively emitted entries. -/
def filterState (st : PpState) : PpState :=
  ⟨st.stack, st.table, st.output.filter (fun e => e.2), st.errors⟩

theorem scanStep_filter (t : VTok) (st : PpState) :
    scanStep ⟨true⟩ (filterState st) t = filterState (scanStep ⟨false⟩ st t) := by
  obtain ⟨stk, tbl, out, errs⟩ := st
  cases t with
  | ifdef m => rfl
  | ifndef m => rfl
  | define m body => rfl
  | undef m => rfl
  | elsif m =>
    cases stk with
    | nil => rfl
    | cons fr rest =>
      by_cases h : (!fr.group_taken_already && isDefinedTbl tbl m) = true
      · simp [scanStep, filterState, h]
      · simp [scanStep, filterState, h]
  | els =>
    cases stk with
    | nil => rfl
    | cons fr rest => rfl
  | endif =>
    cases stk with
    | nil => rfl
    | cons fr rest => rfl
  | text s =>
    by_cases h : activeNow stk = true
    · simp [scanStep, filterState, h, List.filter_append]
    · simp [scanStep, filterState, h, List.filter_append]

theorem scanFrom_filter (toks : List VTok) (st : PpState) :
    scanFrom ⟨true⟩ (filterState st) toks = filterState (scanFrom ⟨false⟩ st toks) := by
  induction toks generalizing st with
  | nil => rfl
  | cons t ts ih =>
    simp only [scanFrom, List.foldl_cons] at ih ⊢
    rw [scanStep_filter, ih]

theorem scanStream_filter (defines : List (String × String)) (toks : List VTok) :
    scanStream ⟨true⟩ defines toks = filterState (scanStream ⟨false⟩ defines toks) := by
  have h := scanFrom_filter toks (initState defines)
  rw [show filterState (initState defines) = initState defines from rfl] at h
  simp only [scanStream, h]
  obtain ⟨stk, tbl, out, errs⟩ := scanFrom ⟨false⟩ (initState defines) toks
  rfl

theorem all_filter_self {α : Type} (p : α → Bool) (l : List α) :
    (l.filter p).all p = true := by
  induction l with
  | nil => rfl
  | cons a l ih =>
    by_cases h : p a <;> simp [List.filter_cons, h, ih]

/-- C5: with filter_branches = true (as the multiple-compilation-unit
subcommand always configures) every entry of the engine's output stream
carries an active mark — no token lying inside an inactive arm ever appears
— and the stream equals the filter_branches = false stream restricted to
its actively marked entries; with filter_branches = false the inactive-arm
tokens do appear, distinguishable by their false mark. -/
theorem filter_branches_excludes_inactive (defines : List (String × String))
    (toks : List VTok) :
    (scanStream ⟨true⟩ defines toks).output
        = ((scanStream ⟨false⟩ defines toks).output).filter (fun e => e.2) ∧
    ((scanStream ⟨true⟩ defines toks).output).all (fun e => e.2) = true := by
  rw [scanStream_filter]
  exact ⟨rfl, all_filter_self _ _⟩

/-- What the subcommand prints for one file: the preprocessed token stream,
then the accumulated diagnostics (source lines 119 to 123). -/
structure SingleOut where
  tokens : List VTok
  diags : List PpDiag
deriving DecidableEq

/-- PreprocessSingleFile (source lines 85 to 126) over the already-read and
lexed significant-token sequence of one file: a freshly constructed
preprocessor with filter_branches = true, its table seeded only with the
externally supplied defines, scans the stream; the preprocessed stream and
the diagnostics are printed. -/
def preprocessSingleFile (defines : List (String × String))
    (toks : List VTok) : SingleOut :=
  ⟨(scanStream ⟨true⟩ defines toks).output.map (fun e => e.1),
   (scanStream ⟨true⟩ defines toks).errors⟩

/-- Status-level result of PreprocessSingleFile: once the file contents are
in hand it always returns a success status, diagnostics notwithstanding
(source line 125). -/
def preprocessSingleFileStatus (defines : List (String × String))
    (toks : List VTok) : Except String SingleOut :=
  .ok (preprocessSingleFile defines toks)

/-- MultipleCU (source lines 128 to 152): loop over the files, running
PreprocessSingleFile on each with the shared command-line defines,
accumulating the per-file printed outputs in order. -/
def multipleCU (defines : List (String × String))
    (files : List (List VTok)) : List SingleOut :=
  files.foldl (fun acc f => acc ++ [preprocessSingleFile defines f]) []

theorem foldl_append_map {α β : Type} (g : α → β) (files : List α) (acc : List β) :
    files.foldl (fun a f => a ++ [g f]) acc = acc ++ files.map g := by
  induction files generalizing acc with
  | nil => simp
  | cons f fs ih => simp [ih]

/-- C7: the multiple-compilation-unit loop preprocesses each file with a
freshly constructed preprocessor and a table seeded only with the external
predefinitions: the i-th output equals `preprocessSingleFile defines`
applied to the i-th file contents alone, so macros defined or undefined
while processing one file have no effect on any later file. -/
theorem multiple_cu_per_file_independent (defines : List (String × String))
    (files : List (List VTok)) :
    multipleCU defines files = files.map (preprocessSingleFile defines) := by
  simp only [multipleCU, foldl_append_map, List.nil_append]

theorem scanStep_endif_empty (st : PpState) (h : st.stack = []) :
    scanStep ⟨true⟩ st .endif
      = { st with errors := st.errors ++ [PpDiag.unmatchedDirective] } := by
  obtain ⟨stk, tbl, out, errs⟩ := st
  cases stk with
  | nil => rfl
  | cons fr rest => simp at h

/-- C6: a stray endif with no matching opener yields exactly one
UnmatchedDirective diagnostic while the engine continues over the remainder
of the file from the same state; the subcommand still emits the
preprocessed stream for the well-formed parts together with the accumulated
diagnostics, and returns a success status. -/
theorem stray_endif_continues (defines : List (String × String))
    (pre post : List VTok)
    (h : (scanFrom ⟨true⟩ (initState defines) pre).stack = []) :
    preprocessSingleFileStatus defines (pre ++ VTok.endif :: post) =
      .ok
        ⟨(finalizeScan (scanFrom ⟨true⟩
            { scanFrom ⟨true⟩ (initState defines) pre with
              errors := (scanFrom ⟨true⟩ (initState defines) pre).errors
                ++ [PpDiag.unmatchedDirective] } post)).output.map (fun e => e.1),
         (finalizeScan (scanFrom ⟨true⟩
            { scanFrom ⟨true⟩ (initState defines) pre with
              errors := (scanFrom ⟨true⟩ (initState defines) pre).errors
                ++ [PpDiag.unmatchedDirective] } post)).errors⟩ := by
  have hsplit : scanFrom ⟨true⟩ (initState defines) (pre ++ VTok.endif :: post)
      = scanFrom ⟨true⟩
          (scanStep ⟨true⟩ (scanFrom ⟨true⟩ (initState defines) pre) VTok.endif)
          post := by
    simp [scanFrom, List.foldl_append]
  rw [preprocessSingleFileStatus, preprocessSingleFile, scanStream, hsplit,
    scanStep_endif_empty _ h]

/-- Witness for C6: file "a endif b" with no predefinitions. -/
theorem stray_endif_continues_witness :
    (scanFrom ⟨true⟩ (initState []) [VTok.text "a"]).stack = [] ∧
    preprocessSingleFileStatus [] ([VTok.text "a"] ++ VTok.endif :: [VTok.text "b"]) =
      .ok
        ⟨(finalizeScan (scanFrom ⟨true⟩
            { scanFrom ⟨true⟩ (initState []) [VTok.text "a"] with
              errors := (scanFrom ⟨true⟩ (initState []) [VTok.text "a"]).errors
                ++ [PpDiag.unmatchedDirective] } [VTok.text "b"])).output.map (fun e => e.1),
         (finalizeScan (scanFrom ⟨true⟩
            { scanFrom ⟨true⟩ (initState []) [VTok.text "a"] with
              errors := (scanFrom ⟨true⟩ (initState []) [VTok.text "a"]).errors
                ++ [PpDiag.unmatchedDirective] } [VTok.text "b"])).errors⟩ :=
  ⟨rfl, stray_endif_continues [] [VTok.text "a"] [VTok.text "b"] rfl⟩

/-- Terminal statuses of the strip-comments subcommand (source lines 41 to
83). -/
inductive StripError where
  | missingFileArgument
  | replacementMustBeSingleChar
  | tooManyArguments
deriving DecidableEq

/-- The strip-comments subcommand (source lines 41 to 83) over its
positional arguments (each as a character list; file-list parsing and file
reading are external glue — the file list is empty exactly when there are
no arguments, and the named file's contents are given).  The result is the
pair handed to the external StripVerilogComments transform: the contents
and the chosen replacement character.  One argument selects the space
character; an empty second argument selects NUL (deletion); a
single-character second argument selects that character; a longer second
argument or more than two arguments is an invalid-argument error and
nothing is written. -/
def stripCommentsCmd (args : List (List Char)) (contents : List Char) :
    Except StripError (List Char × Char) :=
  match args with
  | [] => .error .missingFileArgument
  | [_] => .ok (contents, ' ')
  | [_, r] =>
    match r with
    | [] => .ok (contents, Char.ofNat 0)
    | [c] => .ok (contents, c)
    | _ => .error .replacementMustBeSingleChar
  | _ => .error .tooManyArguments

/-- C9: the strip-comments replacement-character selection — space for one
argument; NUL for an empty second argument; the character itself for a
one-character second argument; an invalid-argument error with no output for
a longer second argument or for more than two arguments. -/
theorem strip_comments_replacement_selection :
    (∀ (f contents : List Char),
      stripCommentsCmd [f] contents = .ok (contents, ' ')) ∧
    (∀ (f contents : List Char),
      stripCommentsCmd [f, []] contents = .ok (contents, Char.ofNat 0)) ∧
    (∀ (f : List Char) (c : Char) (contents : List Char),
      stripCommentsCmd [f, [c]] contents = .ok (contents, c)) ∧
    (∀ (f r contents : List Char), 2 ≤ r.length →
      stripCommentsCmd [f, r] contents = .error .replacementMustBeSingleChar) ∧
    (∀ (args : List (List Char)) (contents : List Char), 3 ≤ args.length →
      stripCommentsCmd args contents = .error .tooManyArguments) := by
  refine ⟨fun f contents => rfl, fun f contents => rfl,
    fun f c contents => rfl, ?_, ?_⟩
  · intro f r contents hlen
    match r with
    | [] => simp at hlen
    | [c] => simp at hlen
    | c1 :: c2 :: rest => rfl
  · intro args contents hlen
    match args with
    | [] => simp at hlen
    | [a] => simp at hlen
    | [a, b] => simp at hlen
    | a :: b :: c :: rest => rfl

/-- Witness for C9: all five selection cases at concrete arguments. -/
theorem strip_comments_replacement_selection_witness :
    stripCommentsCmd [['f']] ['x'] = .ok (['x'], ' ') ∧
    stripCommentsCmd [['f'], []] ['x'] = .ok (['x'], Char.ofNat 0) ∧
    stripCommentsCmd [['f'], ['z']] ['x'] = .ok (['x'], 'z') ∧
    (2 ≤ (['a', 'b'] : List Char).length ∧
      stripCommentsCmd [['f'], ['a', 'b']] ['x'] = .error .replacementMustBeSingleChar) ∧
    (3 ≤ ([['f'], [], []] : List (List Char)).length ∧
      stripCommentsCmd [['f'], [], []] ['x'] = .error .tooManyArguments) :=
  ⟨strip_comments_replacement_selection.1 ['f'] ['x'],
   strip_comments_replacement_selection.2.1 ['f'] ['x'],
   strip_comments_replacement_selection.2.2.1 ['f'] 'z' ['x'],
   ⟨by decide,
    strip_comments_replacement_selection.2.2.2.1 ['f'] ['a', 'b'] ['x'] (by decide)⟩,
   ⟨by decide,
    strip_comments_replacement_selection.2.2.2.2 [['f'], [], []] ['x'] (by decide)⟩⟩

end VeriblePreproc
